import Mathlib

/-!
# Verification of `linear-map` (contain-rs/linear-map)

A shallow embedding of the crate's `LinearMap` (src/lib.rs) and
`LinearBorrowedMap` (src/borrowed.rs) in Lean 4, together with theorems
settling the specification claims.

Modelling conventions:

* The backing `Vec<(K, V)>` is a Lean `List (K × V)`.
* Rust's `Eq` trait on the key type is modelled by an explicit boolean
  comparison `keq : K → K → Bool`; theorems assume the equivalence laws
  (reflexivity, symmetry) only where the proof needs them.  Keeping `keq`
  separate from Lean's propositional equality lets the embedding observe
  the difference between "equal" keys that carry distinct
  non-equality-observable state, which the crate's documentation calls out.
* Iterator-combinator chains in the source become first-order recursive
  scans over lists; imperative loops become fuel-indexed recursions where
  the fuel is the loop bound (`v.len()`), evaluated once as in the source.
* Fallible operations return `Option`/`Except`.
-/

namespace LinearMapRs

/-- Rust `Iterator::position`: index of the first element satisfying `p`. -/
def position (p : α → Bool) : List α → Option Nat
  | [] => none
  | x :: xs => if p x then some 0 else (position p xs).map (· + 1)

/-- `LinearMap<K, V>` from src/lib.rs: a map implemented by searching
linearly in a vector.  The single field mirrors `storage: Vec<(K, V)>`. -/
structure LinearMap (K V : Type) where
  storage : List (K × V)
  deriving Repr, DecidableEq

/-- `LinearMap::new`: creates an empty map. -/
def LinearMap.new : LinearMap K V := ⟨[]⟩

/-- `LinearMap::len`: the number of elements in the map. -/
def LinearMap.len (m : LinearMap K V) : Nat := m.storage.length

/-- `LinearMap::is_empty`. -/
def LinearMap.is_empty (m : LinearMap K V) : Bool := m.storage.isEmpty

/-- `LinearMap::clear`: removes all elements. -/
def LinearMap.clear (_m : LinearMap K V) : LinearMap K V := ⟨[]⟩

/-- The scan of `LinearMap::get` (src/lib.rs lines 232-242): walk the
storage front to back and return the first value whose key compares equal
to `key` (the probe key is the left operand, as in `key == k.borrow()`). -/
def getList (keq : K → K → Bool) (key : K) : List (K × V) → Option V
  | [] => none
  | (k, v) :: rest => if keq key k then some v else getList keq key rest

/-- `LinearMap::get`. -/
def LinearMap.get (keq : K → K → Bool) (m : LinearMap K V) (key : K) : Option V :=
  getList keq key m.storage

/-- `LinearMap::contains_key` = `get` discarding the value. -/
def LinearMap.contains_key (keq : K → K → Bool) (m : LinearMap K V) (key : K) : Bool :=
  (m.get keq key).isSome

/-- The index scan of `LinearMap::entry` (src/lib.rs line 314):
`self.storage.iter().position(|&(ref k, _)| key == *k)`.  The probe key is
the left operand of the comparison. -/
def LinearMap.entryIndex (keq : K → K → Bool) (m : LinearMap K V) (key : K) : Option Nat :=
  position (fun p => keq key p.1) m.storage

/-- `VacantEntry::insert` (src/lib.rs lines 514-517): push `(key, value)`
onto the storage; the returned mutable reference designates the value of
the freshly pushed last element. -/
def VacantEntry.insert (m : LinearMap K V) (key : K) (value : V) : LinearMap K V :=
  ⟨m.storage ++ [(key, value)]⟩

/-- `LinearMap::insert` (src/lib.rs lines 283-291), routed through the
entry API exactly as in the source: an occupied entry replaces only the
value (`mem::replace(self.get_mut(), value)` — the stored key stays), a
vacant entry appends. -/
def LinearMap.insert (keq : K → K → Bool) (m : LinearMap K V) (key : K) (value : V) :
    Option V × LinearMap K V :=
  match m.entryIndex keq key with
  | some i =>
    match m.storage.get? i with
    | some p => (some p.2, ⟨m.storage.set i (p.1, value)⟩)
    | none => (none, m)
  | none => (none, VacantEntry.insert m key value)

/-- `Vec::swap_remove`: replace the element at `i` with the last element
and pop.  (On the last index this is a plain pop.) -/
def swapRemove (l : List α) (i : Nat) : List α :=
  match l.getLast? with
  | none => l
  | some last => (l.set i last).dropLast

/-- `LinearMap::remove` (src/lib.rs lines 300-310): scan for the first
index whose stored key compares equal to `key` (stored key on the left, as
in `self.storage[i].0.borrow() == key`) and `swap_remove` it. -/
def LinearMap.remove (keq : K → K → Bool) (m : LinearMap K V) (key : K) :
    Option V × LinearMap K V :=
  match position (fun p => keq p.1 key) m.storage with
  | some i =>
    match m.storage.get? i with
    | some p => (some p.2, ⟨swapRemove m.storage i⟩)
    | none => (none, m)
  | none => (none, m)

/-- `slice::swap i j` on lists (both indices in bounds in every use). -/
def listSwap (l : List α) (i j : Nat) : List α :=
  match l.get? i, l.get? j with
  | some a, some b => (l.set i b).set j a
  | _, _ => l

/-- The loop of `LinearMap::retain` (src/lib.rs lines 151-170).  The fuel
argument is the loop bound `v.len()`, evaluated once before the loop; `i`
is the loop counter and `del` the running count of deleted elements.  At
each index the closure receives the key and the (mutable) value; the
possibly-mutated value is written back, then either `del` is bumped
(element dropped from the logical map) or, if `del > 0`, the kept element
is swapped `del` slots to the left.  Returns the vector after the loop
together with the final `del`. -/
def retainGo (keep : K → V → Bool × V) :
    Nat → List (K × V) → Nat → Nat → List (K × V) × Nat
  | 0, v, _, del => (v, del)
  | n + 1, v, i, del =>
    match v.get? i with
    | none => (v, del)
    | some (k, val) =>
      let r := keep k val
      let v1 := v.set i (k, r.2)
      if r.1 then
        if 0 < del then retainGo keep n (listSwap v1 (i - del) i) (i + 1) del
        else retainGo keep n v1 (i + 1) del
      else retainGo keep n v1 (i + 1) (del + 1)

/-- `LinearMap::retain`: run the loop, then truncate the storage to
`len - del` (`truncate` is the identity when `del = 0`, as in the source's
`if del > 0` guard). -/
def LinearMap.retain (keep : K → V → Bool × V) (m : LinearMap K V) : LinearMap K V :=
  let r := retainGo keep m.storage.length m.storage 0 0
  ⟨r.1.take (r.1.length - r.2)⟩

/-- The sequence of `(key, value)` arguments passed to the `retain`
closure, in call order: same recursion as `retainGo`, recording each
visit. -/
def retainTrace (keep : K → V → Bool × V) :
    Nat → List (K × V) → Nat → Nat → List (K × V)
  | 0, _, _, _ => []
  | n + 1, v, i, del =>
    match v.get? i with
    | none => []
    | some (k, val) =>
      let r := keep k val
      let v1 := v.set i (k, r.2)
      (k, val) ::
        (if r.1 then
          if 0 < del then retainTrace keep n (listSwap v1 (i - del) i) (i + 1) del
          else retainTrace keep n v1 (i + 1) del
        else retainTrace keep n v1 (i + 1) (del + 1))

/-- Reference description of what `retain` keeps: the pairs whose
(possibly mutated) value passes the predicate, in storage order, with the
mutated value stored. -/
def keptOf (keep : K → V → Bool × V) : List (K × V) → List (K × V)
  | [] => []
  | (k, v) :: rest =>
    let r := keep k v
    if r.1 then (k, r.2) :: keptOf keep rest else keptOf keep rest

/-- `LinearMap::drain` (src/lib.rs lines 179-183), shallowly: `Vec::drain(..)`
removes every element; the handle owns the removed pairs in storage order
and the map is left empty once the handle's lifetime ends, however much of
the handle was consumed. -/
def LinearMap.drain (m : LinearMap K V) : List (K × V) × LinearMap K V :=
  (m.storage, ⟨[]⟩)

/-- The probe sequence of a single linear scan with predicate `p`:
the elements compared, in order, stopping at the first match. -/
def scanProbes (p : α → Bool) : List α → List α
  | [] => []
  | x :: xs => if p x then [x] else x :: scanProbes p xs

/-- `Extend for LinearMap` / `FromIterator` (src/lib.rs lines 345-359):
fold `insert` over the pairs, starting from the given map. -/
def LinearMap.extend (keq : K → K → Bool) (m : LinearMap K V) (l : List (K × V)) :
    LinearMap K V :=
  l.foldl (fun acc p => (acc.insert keq p.1 p.2).2) m

/-- `LinearMap::from_iter`: extend the empty map. -/
def fromList (keq : K → K → Bool) (l : List (K × V)) : LinearMap K V :=
  LinearMap.extend keq ⟨[]⟩ l

/-- `impl From<Vec<(K, V)>> for LinearMap` (src/lib.rs lines 393-397):
adopt the vector as storage verbatim, with no duplicate-key check. -/
def fromVec (l : List (K × V)) : LinearMap K V := ⟨l⟩

/-- `impl PartialEq for LinearMap` (src/lib.rs lines 369-383): equal
lengths and every pair of `self` looked up in `other` yields an equal
value.  `veq` models `V : PartialEq`. -/
def mapEqb (keq : K → K → Bool) (veq : V → V → Bool)
    (a b : LinearMap K V) : Bool :=
  (a.len == b.len) &&
    a.storage.all (fun p =>
      match b.get keq p.1 with
      | some v => veq p.2 v
      | none => false)

/-- `LinearMap::serialize` (src/serde.rs lines 27-35): emit the pairs as a
key-value sequence in iteration order (storage order), with the length as
size hint. -/
def LinearMap.encode (m : LinearMap K V) : List (K × V) := m.storage

/-- `LinearMapVisitor::visit_map` (src/serde.rs lines 70-80): start from an
empty map (the size hint only pre-sizes capacity) and `insert` each entry
in sequence order, so a later duplicate key overwrites an earlier one. -/
def decode (keq : K → K → Bool) (entries : List (K × V)) : LinearMap K V :=
  entries.foldl (fun acc p => (acc.insert keq p.1 p.2).2) ⟨[]⟩

/-- The keys of a storage list, in order. -/
def keysOf (l : List (K × V)) : List K := l.map Prod.fst

/-- The distinct-keys invariant: no two stored pairs have keys that
compare equal under `keq`. -/
def DistinctKeys (keq : K → K → Bool) (l : List (K × V)) : Prop :=
  l.Pairwise (fun a b => keq a.1 b.1 = false)

instance (keq : K → K → Bool) (l : List (K × V)) : Decidable (DistinctKeys keq l) :=
  inferInstanceAs (Decidable (l.Pairwise _))

/-- Deduplicate a key list under `keq` (one representative per
equivalence class; only the count matters below). -/
def dedupKeys (keq : K → K → Bool) : List K → List K
  | [] => []
  | k :: rest =>
    if (dedupKeys keq rest).any (fun k2 => keq k k2) then dedupKeys keq rest
    else k :: dedupKeys keq rest

/-- `first_duplicate` (src/borrowed.rs lines 5-10).  The source expression

`iter.clone().enumerate().filter_map(|(i,&(ref needle,_))|
    iter.clone().take(i).position(|&(ref key,_)| key == needle)).next()`

scans indices `i = 0, 1, …` in order; for each element `needle` at `i` it
searches the first `i` elements (`take i`) for a key comparing equal to
`needle`'s key (stored earlier key on the left, as in `key == needle`);
`next()` takes the first such position.  `fdGo` is that scan with the fuel
being the element count and `i` the enumeration index. -/
def fdGo (keq : K → K → Bool) (l : List (K × V)) : Nat → Nat → Option Nat
  | 0, _ => none
  | n + 1, i =>
    match l.get? i with
    | none => none
    | some needle =>
      match position (fun q => keq q.1 needle.1) (l.take i) with
      | some j => some j
      | none => fdGo keq l n (i + 1)

/-- `first_duplicate` proper: run the scan over the whole list. -/
def first_duplicate (keq : K → K → Bool) (l : List (K × V)) : Option Nat :=
  fdGo keq l l.length 0

/-- `LinearBorrowedMap::new` (src/borrowed.rs lines 15-20): succeed with
the slice if `first_duplicate` finds nothing, otherwise fail carrying the
key at the returned index (`Err(&slice[i].0)`). -/
def LinearBorrowedMap.new (keq : K → K → Bool) (l : List (K × V)) :
    Except K (List (K × V)) :=
  match first_duplicate keq l with
  | none => .ok l
  | some i =>
    match l.get? i with
    | some p => .error p.1
    | none => .ok l

/-- The mutating operations of claim C1, acting on a `LinearMap`. -/
inductive Op (K V : Type) where
  | ins (k : K) (v : V)
  | rem (k : K)
  | ret (keep : K → V → Bool × V)
  | entryOrInsert (k : K) (v : V)
  | clr
  | drn

/-- `Entry::or_insert` (src/lib.rs lines 464-469) as a map transformer: an
occupied entry only hands back a reference (no storage change), a vacant
entry appends the pending pair. -/
def LinearMap.or_insert (keq : K → K → Bool) (m : LinearMap K V) (key : K) (value : V) :
    LinearMap K V :=
  match m.entryIndex keq key with
  | some _ => m
  | none => VacantEntry.insert m key value

/-- Apply one operation. -/
def applyOp (keq : K → K → Bool) : Op K V → LinearMap K V → LinearMap K V
  | .ins k v, m => (m.insert keq k v).2
  | .rem k, m => (m.remove keq k).2
  | .ret keep, m => m.retain keep
  | .entryOrInsert k v, m => m.or_insert keq k v
  | .clr, m => m.clear
  | .drn, m => (m.drain).2

/-- Apply a sequence of operations starting from the empty map. -/
def applyOps (keq : K → K → Bool) (ops : List (Op K V)) : LinearMap K V :=
  ops.foldl (fun m op => applyOp keq op m) ⟨[]⟩

/-- Key comparison for `Nat` keys (derived `Eq`). -/
def keqNat : Nat → Nat → Bool := fun a b => a == b

/-- A key type carrying non-equality-observable state: pairs of naturals
compared on the first component only (a lawful `Eq` whose equal keys can
still be told apart by their second component). -/
def keqFst : Nat × Nat → Nat × Nat → Bool := fun a b => a.1 == b.1

/-! ## Helper lemmas about `position` -/

theorem position_eq_none_iff (p : α → Bool) (l : List α) :
    position p l = none ↔ ∀ x ∈ l, p x = false := by
  induction l with
  | nil => simp [position]
  | cons x xs ih =>
    cases hx : p x with
    | true => simp [position, hx]
    | false => simp [position, hx, Option.map_eq_none', ih]

theorem position_eq_some (p : α → Bool) (l : List α) (i : Nat)
    (h : position p l = some i) :
    ∃ x, l.get? i = some x ∧ p x = true ∧
      ∀ j, j < i → ∀ y, l.get? j = some y → p y = false := by
  induction l generalizing i with
  | nil => simp [position] at h
  | cons x xs ih =>
    cases hx : p x with
    | true =>
      rw [position, hx, if_pos rfl] at h
      obtain rfl : i = 0 := by injection h; omega
      exact ⟨x, rfl, hx, fun j hj => by omega⟩
    | false =>
      rw [position, hx] at h
      simp only [Bool.false_eq_true, if_false, Option.map_eq_some'] at h
      obtain ⟨n, hn, rfl⟩ := h
      obtain ⟨y, hy, hpy, hmin⟩ := ih n hn
      refine ⟨y, by simpa using hy, hpy, ?_⟩
      intro j hj z hz
      cases j with
      | zero =>
        have hzx : x = z := by simpa using hz
        subst hzx
        exact hx
      | succ j' => exact hmin j' (by omega) z (by simpa using hz)

theorem position_lt_length (p : α → Bool) (l : List α) (i : Nat)
    (h : position p l = some i) : i < l.length := by
  obtain ⟨x, hx, -, -⟩ := position_eq_some p l i h
  rw [List.get?_eq_getElem?, List.getElem?_eq_some] at hx
  exact hx.1

/-! ## Helper lemmas about `getList` -/

theorem getList_eq_position (keq : K → K → Bool) (key : K) (l : List (K × V)) :
    getList keq key l =
      (position (fun p => keq key p.1) l).bind (fun i => (l.get? i).map Prod.snd) := by
  induction l with
  | nil => rfl
  | cons x xs ih =>
    obtain ⟨k, v⟩ := x
    cases hx : keq key k with
    | true => simp [getList, position, hx]
    | false =>
      rw [getList, if_neg (by simp [hx]), ih, position]
      simp only [hx, Bool.false_eq_true, if_false]
      cases position (fun p => keq key p.1) xs <;> rfl

theorem getList_eq_none_iff (keq : K → K → Bool) (key : K) (l : List (K × V)) :
    getList keq key l = none ↔ ∀ p ∈ l, keq key p.1 = false := by
  induction l with
  | nil => simp [getList]
  | cons x xs ih =>
    obtain ⟨k, v⟩ := x
    cases hx : keq key k with
    | true => simp [getList, hx]
    | false => simp [getList, hx, ih]

/-! ## Helper lemmas about `swapRemove` -/

theorem swapRemove_concat (l : List α) (a : α) (i : Nat) :
    swapRemove (l ++ [a]) i = ((l ++ [a]).set i a).dropLast := by
  rw [swapRemove, List.getLast?_concat]

theorem swapRemove_perm (l : List α) (i : Nat) (h : i < l.length) :
    List.Perm (swapRemove l i) (l.eraseIdx i) := by
  induction l generalizing i with
  | nil => simp at h
  | cons x xs ih =>
    rcases List.eq_nil_or_concat xs with rfl | ⟨ys, last, rfl⟩
    · obtain rfl : i = 0 := by simp at h; omega
      simp [swapRemove]
    · simp only [List.concat_eq_append] at ih h ⊢
      have hcons : x :: (ys ++ [last]) = (x :: ys) ++ [last] := rfl
      cases i with
      | zero =>
        have h1 : swapRemove (x :: (ys ++ [last])) 0 = last :: ys := by
          rw [hcons, swapRemove_concat, ← hcons, List.set_cons_zero,
            show last :: (ys ++ [last]) = (last :: ys) ++ [last] from rfl,
            List.dropLast_concat]
        rw [h1, List.eraseIdx_cons_zero]
        exact (List.perm_append_singleton last ys).symm
      | succ n =>
        have h1 : swapRemove (x :: (ys ++ [last])) (n + 1)
            = (x :: (ys ++ [last]).set n last).dropLast := by
          rw [hcons, swapRemove_concat, ← hcons, List.set_cons_succ]
        have hlen : ((ys ++ [last]).set n last).length = ys.length + 1 := by simp
        have hd : (x :: (ys ++ [last]).set n last).dropLast
            = x :: ((ys ++ [last]).set n last).dropLast := by
          cases hm : (ys ++ [last]).set n last with
          | nil => rw [hm] at hlen; simp at hlen
          | cons z zs => rfl
        rw [h1, hd, List.eraseIdx_cons_succ]
        refine List.Perm.cons x ?_
        have hn : n < (ys ++ [last]).length := by
          simp only [List.length_cons] at h
          omega
        have hr := ih n hn
        rw [swapRemove_concat] at hr
        exact hr

theorem length_swapRemove (l : List α) (i : Nat) (h : i < l.length) :
    (swapRemove l i).length + 1 = l.length := by
  rw [(swapRemove_perm l i h).length_eq]
  exact List.length_eraseIdx_add_one h

/-! ## Helper lemmas about `DistinctKeys`, `keysOf` and `keptOf` -/

theorem distinctKeys_iff_keys (keq : K → K → Bool) (l : List (K × V)) :
    DistinctKeys keq l ↔ (keysOf l).Pairwise (fun a b => keq a b = false) := by
  simp [DistinctKeys, keysOf, List.pairwise_map]

theorem distinctKeys_cons_iff (keq : K → K → Bool) (x : K × V) (l : List (K × V)) :
    DistinctKeys keq (x :: l) ↔
      (∀ p ∈ l, keq x.1 p.1 = false) ∧ DistinctKeys keq l := by
  simp [DistinctKeys, List.pairwise_cons]

theorem distinctKeys_of_keys_sublist (keq : K → K → Bool) {l1 l2 : List (K × V)}
    (hs : (keysOf l1).Sublist (keysOf l2)) (hd : DistinctKeys keq l2) :
    DistinctKeys keq l1 := by
  rw [distinctKeys_iff_keys] at *
  exact List.Pairwise.sublist hs hd

theorem getList_of_mem_distinct (keq : K → K → Bool)
    (hsymm : ∀ a b, keq a b = true → keq b a = true)
    (hrefl : ∀ a, keq a a = true)
    {l : List (K × V)} (hd : DistinctKeys keq l)
    {k : K} {v : V} (hm : (k, v) ∈ l) : getList keq k l = some v := by
  induction l with
  | nil => simp at hm
  | cons x xs ih =>
    obtain ⟨k0, v0⟩ := x
    obtain ⟨hhead, htail⟩ := (distinctKeys_cons_iff keq _ _).mp hd
    rcases List.mem_cons.mp hm with heq | hmem
    · obtain ⟨rfl, rfl⟩ := Prod.mk.injEq .. ▸ heq
      simp [getList, hrefl k]
    · cases hkk : keq k k0 with
      | true =>
        have h1 := hsymm k k0 hkk
        have h2 := hhead (k, v) hmem
        simp only [] at h2
        rw [h1] at h2
        exact absurd h2 (by simp)
      | false =>
        rw [getList, if_neg (by simp [hkk])]
        exact ih htail hmem

theorem keysOf_set_same (l : List (K × V)) (i : Nat) (p : K × V) (v : V)
    (h : l.get? i = some p) : keysOf (l.set i (p.1, v)) = keysOf l := by
  induction l generalizing i with
  | nil => simp at h
  | cons x xs ih =>
    cases i with
    | zero =>
      obtain rfl : x = p := by simpa using h
      simp [keysOf]
    | succ n =>
      rw [List.set_cons_succ]
      simp only [keysOf, List.map_cons]
      rw [show List.map Prod.fst (xs.set n (p.1, v)) = keysOf (xs.set n (p.1, v)) from rfl,
        ih n (by simpa using h)]
      rfl

theorem keptOf_cons (keep : K → V → Bool × V) (k : K) (v : V) (xs : List (K × V)) :
    keptOf keep ((k, v) :: xs)
      = if (keep k v).1 then (k, (keep k v).2) :: keptOf keep xs
        else keptOf keep xs := rfl

theorem keptOf_append (keep : K → V → Bool × V) (l1 l2 : List (K × V)) :
    keptOf keep (l1 ++ l2) = keptOf keep l1 ++ keptOf keep l2 := by
  induction l1 with
  | nil => rfl
  | cons x xs ih =>
    obtain ⟨k, v⟩ := x
    by_cases hk : (keep k v).1 <;> simp [keptOf_cons, hk, ih]

theorem keysOf_keptOf_sublist (keep : K → V → Bool × V) (l : List (K × V)) :
    (keysOf (keptOf keep l)).Sublist (keysOf l) := by
  induction l with
  | nil => simp [keptOf, keysOf]
  | cons x xs ih =>
    obtain ⟨k, v⟩ := x
    by_cases hk : (keep k v).1
    · rw [keptOf_cons, if_pos hk]
      exact List.Sublist.cons₂ k ih
    · rw [keptOf_cons, if_neg hk]
      exact List.Sublist.cons k ih

/-! ## Helper lemmas for the `retain` loop -/

theorem take_set_of_le (l : List α) (i m : Nat) (a : α) (h : m ≤ i) :
    (l.set i a).take m = l.take m := by
  apply List.ext_getElem?
  intro j
  rw [List.getElem?_take, List.getElem?_take]
  by_cases hj : j < m
  · rw [if_pos hj, if_pos hj, List.getElem?_set_ne (by omega)]
  · rw [if_neg hj, if_neg hj]

theorem length_listSwap (l : List α) (i j : Nat) :
    (listSwap l i j).length = l.length := by
  unfold listSwap
  split <;> simp

theorem listSwap_eq (l : List α) (i j : Nat) (hi : i < l.length) (hj : j < l.length) :
    listSwap l i j = (l.set i l[j]).set j l[i] := by
  rw [listSwap, List.get?_eq_getElem?, List.get?_eq_getElem?,
    List.getElem?_eq_getElem hi, List.getElem?_eq_getElem hj]

theorem drop_listSwap_of_lt (l : List α) (i j m : Nat) (hi : i < m) (hj : j < m) :
    (listSwap l i j).drop m = l.drop m := by
  unfold listSwap
  split
  · rw [List.drop_set, if_pos hj, List.drop_set, if_pos hi]
  · rfl

theorem take_swap_step (v1 : List α) (i del : Nat) (hdel0 : 0 < del) (hdel : del ≤ i)
    (hi : i < v1.length) :
    (listSwap v1 (i - del) i).take (i + 1 - del) = v1.take (i - del) ++ [v1[i]] := by
  have hidel : i - del < v1.length := by omega
  rw [listSwap_eq v1 (i - del) i hidel hi]
  rw [show i + 1 - del = (i - del) + 1 by omega]
  rw [take_set_of_le _ _ _ _ (by omega : i - del + 1 ≤ i)]
  rw [List.take_succ, List.getElem?_set_self hidel]
  rw [take_set_of_le _ _ _ _ (Nat.le_refl (i - del))]
  rfl

theorem retainGo_spec (keep : K → V → Bool × V) (orig : List (K × V)) :
    ∀ n v i del, v.length = orig.length → i + n = orig.length → del ≤ i →
      v.take (i - del) = keptOf keep (orig.take i) →
      v.drop i = orig.drop i →
      (retainGo keep n v i del).1.length = orig.length ∧
        (retainGo keep n v i del).2 ≤ orig.length ∧
        (retainGo keep n v i del).1.take (orig.length - (retainGo keep n v i del).2)
          = keptOf keep orig := by
  intro n
  induction n with
  | zero =>
    intro v i del hlen hi hdel htake hdrop
    obtain rfl : i = orig.length := by omega
    simp only [retainGo]
    exact ⟨hlen, by omega, by simpa [List.take_length] using htake⟩
  | succ n ih =>
    intro v i del hlen hi hdel htake hdrop
    have hiLt : i < orig.length := by omega
    have hiv : i < v.length := by omega
    have hvi : v[i]? = orig[i]? := by
      have h1 : (v.drop i)[0]? = (orig.drop i)[0]? := by rw [hdrop]
      rw [List.getElem?_drop, List.getElem?_drop] at h1
      simpa using h1
    obtain ⟨k, val, hk⟩ : ∃ k val, v.get? i = some (k, val) := by
      rw [List.get?_eq_getElem?, hvi, List.getElem?_eq_getElem hiLt]
      exact ⟨orig[i].1, orig[i].2, by simp⟩
    have horig : orig[i]? = some (k, val) := by
      rw [← hvi, ← List.get?_eq_getElem?, hk]
    have htakesucc : orig.take (i + 1) = orig.take i ++ [(k, val)] := by
      rw [List.take_succ, horig]
      rfl
    have hdrop1 : v.drop (i + 1) = orig.drop (i + 1) := by
      have h2 : List.drop 1 (v.drop i) = List.drop 1 (orig.drop i) := by rw [hdrop]
      rw [List.drop_drop, List.drop_drop] at h2
      exact h2
    have hv1get : (v.set i (k, (keep k val).2))[i]? = some (k, (keep k val).2) :=
      List.getElem?_set_self hiv
    simp only [retainGo, hk]
    by_cases hkeep : (keep k val).1
    · rw [if_pos hkeep]
      by_cases hdel0 : 0 < del
      · rw [if_pos hdel0]
        apply ih
        · rw [length_listSwap]; simpa using hlen
        · omega
        · omega
        · have hiv1 : i < (v.set i (k, (keep k val).2)).length := by simpa using hiv
          rw [take_swap_step _ i del hdel0 hdel hiv1]
          have hv1i : (v.set i (k, (keep k val).2))[i] = (k, (keep k val).2) := by
            have := List.getElem?_eq_getElem hiv1
            rw [hv1get] at this
            exact (Option.some_inj.mp this).symm
          rw [hv1i, take_set_of_le _ _ _ _ (Nat.sub_le i del), htake,
            htakesucc, keptOf_append, keptOf_cons, if_pos hkeep, keptOf]
        · rw [drop_listSwap_of_lt _ _ _ _ (by omega) (by omega),
            List.drop_set, if_pos (by omega : i < i + 1)]
          exact hdrop1
      · rw [if_neg hdel0]
        obtain rfl : del = 0 := by omega
        apply ih
        · simpa using hlen
        · omega
        · omega
        · rw [Nat.sub_zero, List.take_succ, hv1get,
            take_set_of_le _ _ _ _ (Nat.le_refl i)]
          rw [Nat.sub_zero] at htake
          rw [htake, htakesucc, keptOf_append, keptOf_cons, if_pos hkeep, keptOf]
          rfl
        · rw [List.drop_set, if_pos (by omega : i < i + 1)]
          exact hdrop1
    · rw [if_neg hkeep]
      apply ih
      · simpa using hlen
      · omega
      · omega
      · rw [Nat.succ_sub_succ, take_set_of_le _ _ _ _ (Nat.sub_le i del), htake,
          htakesucc, keptOf_append, keptOf_cons, if_neg hkeep, keptOf]
        simp
      · rw [List.drop_set, if_pos (by omega : i < i + 1)]
        exact hdrop1

/-- `retain` computes exactly the order-preserving filter `keptOf`. -/
theorem retain_eq_keptOf (keep : K → V → Bool × V) (m : LinearMap K V) :
    (m.retain keep).storage = keptOf keep m.storage := by
  obtain ⟨l⟩ := m
  have h := retainGo_spec keep l l.length l 0 0 rfl (by omega) (by omega)
    (by simp [keptOf]) (by simp)
  obtain ⟨h1, h2, h3⟩ := h
  show (retainGo keep l.length l 0 0).1.take
      ((retainGo keep l.length l 0 0).1.length - (retainGo keep l.length l 0 0).2)
    = keptOf keep l
  rw [h1]
  exact h3

theorem retainTrace_spec (keep : K → V → Bool × V) (orig : List (K × V)) :
    ∀ n v i del, v.length = orig.length → i + n = orig.length →
      v.drop i = orig.drop i →
      retainTrace keep n v i del = orig.drop i := by
  intro n
  induction n with
  | zero =>
    intro v i del hlen hi hdrop
    obtain rfl : i = orig.length := by omega
    simp only [retainTrace]
    rw [List.drop_length]
  | succ n ih =>
    intro v i del hlen hi hdrop
    have hiLt : i < orig.length := by omega
    have hiv : i < v.length := by omega
    have hvi : v[i]? = orig[i]? := by
      have h1 : (v.drop i)[0]? = (orig.drop i)[0]? := by rw [hdrop]
      rw [List.getElem?_drop, List.getElem?_drop] at h1
      simpa using h1
    obtain ⟨k, val, hk⟩ : ∃ k val, v.get? i = some (k, val) := by
      rw [List.get?_eq_getElem?, hvi, List.getElem?_eq_getElem hiLt]
      exact ⟨orig[i].1, orig[i].2, by simp⟩
    have horig : orig[i] = (k, val) := by
      have h2 := List.getElem?_eq_getElem hiLt
      rw [← hvi, ← List.get?_eq_getElem?, hk] at h2
      exact (Option.some_inj.mp h2).symm
    have hdropcons : orig.drop i = (k, val) :: orig.drop (i + 1) := by
      rw [List.drop_eq_getElem_cons hiLt, horig]
    have hdrop1 : v.drop (i + 1) = orig.drop (i + 1) := by
      have h2 : List.drop 1 (v.drop i) = List.drop 1 (orig.drop i) := by rw [hdrop]
      rw [List.drop_drop, List.drop_drop] at h2
      exact h2
    simp only [retainTrace, hk]
    by_cases hkeep : (keep k val).1
    · rw [if_pos hkeep]
      by_cases hdel0 : 0 < del
      · rw [if_pos hdel0, hdropcons]
        refine congrArg (List.cons _) (ih _ _ _ ?_ (by omega) ?_)
        · rw [length_listSwap]; simpa using hlen
        · rw [drop_listSwap_of_lt _ _ _ _ (by omega) (by omega),
            List.drop_set, if_pos (by omega : i < i + 1)]
          exact hdrop1
      · rw [if_neg hdel0, hdropcons]
        refine congrArg (List.cons _) (ih _ _ _ (by simpa using hlen) (by omega) ?_)
        rw [List.drop_set, if_pos (by omega : i < i + 1)]
        exact hdrop1
    · rw [if_neg hkeep, hdropcons]
      refine congrArg (List.cons _) (ih _ _ _ (by simpa using hlen) (by omega) ?_)
      rw [List.drop_set, if_pos (by omega : i < i + 1)]
      exact hdrop1

/-- The `retain` loop hands each stored pair to the closure exactly once,
in storage order. -/
theorem retainTrace_full (keep : K → V → Bool × V) (l : List (K × V)) :
    retainTrace keep l.length l 0 0 = l := by
  simpa using retainTrace_spec keep l l.length l 0 0 rfl (by omega) rfl

/-! ## Helper lemmas about `extend` / `fromList` -/

theorem distinct_symm_rel (keq : K → K → Bool)
    (hsymm : ∀ a b, keq a b = true → keq b a = true) :
    ∀ {x y : K × V}, keq x.1 y.1 = false → keq y.1 x.1 = false := by
  intro x y h
  cases hc : keq y.1 x.1 with
  | false => rfl
  | true => rw [hsymm _ _ hc] at h; exact absurd h (by simp)

theorem keq_false_of_symm (keq : K → K → Bool)
    (hsymm : ∀ a b, keq a b = true → keq b a = true)
    {a b : K} (h : keq a b = false) : keq b a = false := by
  cases hc : keq b a with
  | false => rfl
  | true => rw [hsymm _ _ hc] at h; exact absurd h (by simp)

theorem extend_distinct (keq : K → K → Bool)
    (hsymm : ∀ a b, keq a b = true → keq b a = true) :
    ∀ (l acc : List (K × V)), DistinctKeys keq l →
      (∀ q ∈ l, ∀ p ∈ acc, keq q.1 p.1 = false) →
      (LinearMap.extend keq ⟨acc⟩ l).storage = acc ++ l := by
  intro l
  induction l with
  | nil => intro acc _ _; simp [LinearMap.extend]
  | cons x xs ih =>
    intro acc hd hfresh
    obtain ⟨k, v⟩ := x
    have hpos : LinearMap.entryIndex keq (⟨acc⟩ : LinearMap K V) k = none := by
      rw [LinearMap.entryIndex, position_eq_none_iff]
      intro p hp
      exact hfresh (k, v) (List.mem_cons_self _ _) p hp
    have hins : (LinearMap.insert keq ⟨acc⟩ k v).2
        = (⟨acc ++ [(k, v)]⟩ : LinearMap K V) := by
      rw [LinearMap.insert, hpos]
      rfl
    obtain ⟨hhead, htail⟩ := (distinctKeys_cons_iff keq _ _).mp hd
    have hfresh2 : ∀ q ∈ xs, ∀ p ∈ acc ++ [(k, v)], keq q.1 p.1 = false := by
      intro q hq p hp
      rcases List.mem_append.mp hp with hacc | hsingle
      · exact hfresh q (List.mem_cons_of_mem _ hq) p hacc
      · obtain rfl : p = (k, v) := by simpa using hsingle
        exact keq_false_of_symm keq hsymm (hhead q hq)
    rw [LinearMap.extend, List.foldl_cons, hins]
    rw [show List.foldl (fun acc p => (acc.insert keq p.1 p.2).2)
        (⟨acc ++ [(k, v)]⟩ : LinearMap K V) xs
      = (LinearMap.extend keq ⟨acc ++ [(k, v)]⟩ xs) from rfl]
    rw [ih (acc ++ [(k, v)]) htail hfresh2]
    simp

theorem fromList_distinct (keq : K → K → Bool)
    (hsymm : ∀ a b, keq a b = true → keq b a = true)
    (l : List (K × V)) (hd : DistinctKeys keq l) :
    (fromList keq l).storage = l := by
  rw [fromList, extend_distinct keq hsymm l [] hd (by intro q _ p hp; simp at hp)]
  rfl

/-! ## Helper lemmas about `mapEqb` -/

theorem mapEqb_eq_true_iff (keq : K → K → Bool) (veq : V → V → Bool)
    (a b : LinearMap K V) :
    mapEqb keq veq a b = true ↔
      (a.len = b.len ∧
        ∀ p ∈ a.storage, ∃ v, b.get keq p.1 = some v ∧ veq p.2 v = true) := by
  rw [mapEqb, Bool.and_eq_true, List.all_eq_true, beq_iff_eq]
  apply and_congr Iff.rfl
  apply forall_congr'
  intro p
  apply imp_congr Iff.rfl
  cases hbv : b.get keq p.1 <;> simp

theorem mapEqb_of_perm_distinct (keq : K → K → Bool) (veq : V → V → Bool)
    (hsymm : ∀ a b, keq a b = true → keq b a = true)
    (hrefl : ∀ a, keq a a = true)
    (hveq : ∀ v, veq v v = true)
    (l l' : List (K × V)) (hd : DistinctKeys keq l) (hp : List.Perm l l') :
    mapEqb keq veq ⟨l⟩ ⟨l'⟩ = true := by
  rw [mapEqb_eq_true_iff]
  constructor
  · exact hp.length_eq
  · intro p hpmem
    have hd' : DistinctKeys keq l' :=
      (List.Perm.pairwise_iff (distinct_symm_rel keq hsymm) hp).mp hd
    have hm' : p ∈ l' := hp.subset hpmem
    have hg := getList_of_mem_distinct keq hsymm hrefl hd'
      (show (p.1, p.2) ∈ l' by simpa)
    exact ⟨p.2, hg, hveq p.2⟩

/-! ## Helper lemmas about `dedupKeys` -/

theorem dedupKeys_of_pairwise (keq : K → K → Bool) (l : List K)
    (hd : l.Pairwise (fun a b => keq a b = false)) : dedupKeys keq l = l := by
  induction l with
  | nil => rfl
  | cons k rest ih =>
    obtain ⟨hhead, htail⟩ := List.pairwise_cons.mp hd
    have hcond : ¬(rest.any (fun k2 => keq k k2) = true) := by
      rw [List.any_eq_true]
      rintro ⟨x, hx, hkx⟩
      rw [hhead x hx] at hkx
      exact absurd hkx (by simp)
    rw [dedupKeys, ih htail, if_neg hcond]

/-! ## Helper lemmas about `first_duplicate` -/

/-- `DistinctKeys` phrased through `get?`: every pair of positions `j < i`
has inequivalent keys. -/
theorem distinctKeys_iff_get? (keq : K → K → Bool) (l : List (K × V)) :
    DistinctKeys keq l ↔
      ∀ j i, j < i → ∀ p q, l.get? j = some p → l.get? i = some q →
        keq p.1 q.1 = false := by
  rw [DistinctKeys, List.pairwise_iff_getElem]
  constructor
  · intro h j i hji p q hp hq
    rw [List.get?_eq_getElem?, List.getElem?_eq_some] at hp hq
    obtain ⟨hj, rfl⟩ := hp
    obtain ⟨hi, rfl⟩ := hq
    exact h j i hj hi hji
  · intro h i j hi hj hij
    exact h i j hij _ _
      (by rw [List.get?_eq_getElem?, List.getElem?_eq_getElem hi])
      (by rw [List.get?_eq_getElem?, List.getElem?_eq_getElem hj])

theorem take_get?_of_lt (l : List α) (i j : Nat) (h : j < i) :
    (l.take i).get? j = l.get? j := by
  rw [List.get?_eq_getElem?, List.get?_eq_getElem?, List.getElem?_take, if_pos h]

theorem fdGo_succ_found (keq : K → K → Bool) (l : List (K × V)) (n i : Nat)
    (needle : K × V) (j : Nat) (h : l.get? i = some needle)
    (hpos : position (fun q => keq q.1 needle.1) (l.take i) = some j) :
    fdGo keq l (n + 1) i = some j := by
  simp only [fdGo, h, hpos]

theorem fdGo_succ_notfound (keq : K → K → Bool) (l : List (K × V)) (n i : Nat)
    (needle : K × V) (h : l.get? i = some needle)
    (hpos : position (fun q => keq q.1 needle.1) (l.take i) = none) :
    fdGo keq l (n + 1) i = fdGo keq l n (i + 1) := by
  simp only [fdGo, h, hpos]

theorem fdGo_eq_none_iff (keq : K → K → Bool) (l : List (K × V)) :
    ∀ n i, i + n = l.length →
      (fdGo keq l n i = none ↔
        ∀ i2, i ≤ i2 → ∀ j, j < i2 → ∀ p q,
          l.get? j = some p → l.get? i2 = some q → keq p.1 q.1 = false) := by
  intro n
  induction n with
  | zero =>
    intro i hi
    simp only [fdGo, true_iff]
    intro i2 hi2 j hj p q hp hq
    rw [List.get?_eq_none.mpr (by omega)] at hq
    exact absurd hq (by simp)
  | succ n ih =>
    intro i hi
    have hiLt : i < l.length := by omega
    have hneedle : l.get? i = some l[i] := by
      rw [List.get?_eq_getElem?, List.getElem?_eq_getElem hiLt]
    cases hpos : position (fun q => keq q.1 l[i].1) (l.take i) with
    | some j =>
      rw [fdGo_succ_found keq l n i l[i] j hneedle hpos]
      apply iff_of_false (by simp)
      intro hall
      obtain ⟨x, hx, hpx, -⟩ := position_eq_some _ _ _ hpos
      have hjlt : j < i := by
        have := position_lt_length _ _ _ hpos
        have hlen : (l.take i).length ≤ i := by
          simp [List.length_take]
        omega
      have hcontra := hall i (Nat.le_refl i) j hjlt x l[i]
        (by rw [← take_get?_of_lt l i j hjlt]; exact hx) hneedle
      rw [hpx] at hcontra
      exact absurd hcontra (by simp)
    | none =>
      rw [fdGo_succ_notfound keq l n i l[i] hneedle hpos, ih (i + 1) (by omega)]
      constructor
      · intro h i2 hi2 j hj p q hp hq
        rcases Nat.lt_or_ge i i2 with hlt | hge
        · exact h i2 (by omega) j hj p q hp hq
        · have hie : i2 = i := by omega
          rw [hie, hneedle] at hq
          have hq2 : q = l[i] := (Option.some_inj.mp hq).symm
          rw [hie] at hj
          have hmem : p ∈ l.take i := by
            apply List.get?_mem (n := j)
            rw [take_get?_of_lt l i j hj]
            exact hp
          have hres := (position_eq_none_iff _ _).mp hpos p hmem
          rw [hq2]
          simpa using hres
      · intro h i2 hi2 j hj p q hp hq
        exact h i2 (by omega) j hj p q hp hq

theorem fdGo_eq_some (keq : K → K → Bool) (l : List (K × V)) :
    ∀ n i j, i + n = l.length →
      (∀ i3, i3 < i → ∀ j3, j3 < i3 → ∀ p q,
        l.get? j3 = some p → l.get? i3 = some q → keq p.1 q.1 = false) →
      fdGo keq l n i = some j →
      ∃ i2, i ≤ i2 ∧ i2 < l.length ∧ j < i2 ∧
        (∃ p q, l.get? j = some p ∧ l.get? i2 = some q ∧ keq p.1 q.1 = true) ∧
        (∀ i3, i3 < i2 → ∀ j3, j3 < i3 → ∀ p q,
          l.get? j3 = some p → l.get? i3 = some q → keq p.1 q.1 = false) ∧
        (∀ j3, j3 < j → ∀ p q,
          l.get? j3 = some p → l.get? i2 = some q → keq p.1 q.1 = false) := by
  intro n
  induction n with
  | zero =>
    intro i j hi hclean h
    simp [fdGo] at h
  | succ n ih =>
    intro i j hi hclean h
    have hiLt : i < l.length := by omega
    have hneedle : l.get? i = some l[i] := by
      rw [List.get?_eq_getElem?, List.getElem?_eq_getElem hiLt]
    cases hpos : position (fun q => keq q.1 l[i].1) (l.take i) with
    | some j0 =>
      rw [fdGo_succ_found keq l n i l[i] j0 hneedle hpos] at h
      have hjq : j0 = j := by simpa using h
      rw [← hjq]
      obtain ⟨x, hx, hpx, hmin⟩ := position_eq_some _ _ _ hpos
      have hjlt : j0 < i := by
        have := position_lt_length _ _ _ hpos
        have hlen : (l.take i).length ≤ i := by simp [List.length_take]
        omega
      refine ⟨i, Nat.le_refl i, hiLt, hjlt, ⟨x, l[i], ?_, hneedle, by simp [hpx]⟩,
        hclean, ?_⟩
      · rw [← take_get?_of_lt l i j0 hjlt]; exact hx
      · intro j3 hj3 p q hp hq
        rw [hneedle] at hq
        have hq2 : q = l[i] := (Option.some_inj.mp hq).symm
        rw [hq2]
        have hres := hmin j3 hj3 p
          (by rw [take_get?_of_lt l i j3 (by omega)]; exact hp)
        simpa using hres
    | none =>
      rw [fdGo_succ_notfound keq l n i l[i] hneedle hpos] at h
      have hclean2 : ∀ i3, i3 < i + 1 → ∀ j3, j3 < i3 → ∀ p q,
          l.get? j3 = some p → l.get? i3 = some q → keq p.1 q.1 = false := by
        intro i3 hi3 j3 hj3 p q hp hq
        rcases Nat.lt_or_ge i3 i with hlt | hge
        · exact hclean i3 hlt j3 hj3 p q hp hq
        · have hie : i3 = i := by omega
          rw [hie, hneedle] at hq
          have hq2 : q = l[i] := (Option.some_inj.mp hq).symm
          rw [hie] at hj3
          have hmem : p ∈ l.take i := by
            apply List.get?_mem (n := j3)
            rw [take_get?_of_lt l i j3 hj3]
            exact hp
          have hres := (position_eq_none_iff _ _).mp hpos p hmem
          rw [hq2]
          simpa using hres
      obtain ⟨i2, h1, h2, h3, h4, h5, h6⟩ := ih (i + 1) j (by omega) hclean2 h
      exact ⟨i2, by omega, h2, h3, h4, h5, h6⟩

/-- `first_duplicate` finds nothing exactly on duplicate-free sequences. -/
theorem first_duplicate_eq_none_iff (keq : K → K → Bool) (l : List (K × V)) :
    first_duplicate keq l = none ↔ DistinctKeys keq l := by
  rw [first_duplicate, fdGo_eq_none_iff keq l l.length 0 (by omega),
    distinctKeys_iff_get?]
  constructor
  · intro h j i hji p q hp hq
    exact h i (by omega) j hji p q hp hq
  · intro h i2 _ j hj p q hp hq
    exact h j i2 hj p q hp hq

/-- What `first_duplicate = some j` means: there is a scan index `i2`
(the first element that has an equal earlier key) and `j` is the earliest
index below `i2` carrying an equal key — the *earlier* element of the
first conflict. -/
theorem first_duplicate_eq_some (keq : K → K → Bool) (l : List (K × V)) (j : Nat)
    (h : first_duplicate keq l = some j) :
    ∃ i2, i2 < l.length ∧ j < i2 ∧
      (∃ p q, l.get? j = some p ∧ l.get? i2 = some q ∧ keq p.1 q.1 = true) ∧
      (∀ i3, i3 < i2 → ∀ j3, j3 < i3 → ∀ p q,
        l.get? j3 = some p → l.get? i3 = some q → keq p.1 q.1 = false) ∧
      (∀ j3, j3 < j → ∀ p q,
        l.get? j3 = some p → l.get? i2 = some q → keq p.1 q.1 = false) := by
  rw [first_duplicate] at h
  obtain ⟨i2, -, h2, h3, h4, h5, h6⟩ :=
    fdGo_eq_some keq l l.length 0 j (by omega) (by omega) h
  exact ⟨i2, h2, h3, h4, h5, h6⟩

/-! ## Preservation of the distinct-keys invariant -/

theorem append_distinct (keq : K → K → Bool)
    (hsymm : ∀ a b, keq a b = true → keq b a = true)
    (l : List (K × V)) (k : K) (v : V)
    (hd : DistinctKeys keq l) (hfresh : ∀ p ∈ l, keq k p.1 = false) :
    DistinctKeys keq (l ++ [(k, v)]) := by
  rw [DistinctKeys, List.pairwise_append]
  refine ⟨hd, List.pairwise_singleton _ _, ?_⟩
  intro a ha b hb
  obtain rfl : b = (k, v) := by simpa using hb
  exact keq_false_of_symm keq hsymm (hfresh a ha)

theorem getList_append_right (keq : K → K → Bool) (key : K)
    (l1 l2 : List (K × V)) (h : ∀ p ∈ l1, keq key p.1 = false) :
    getList keq key (l1 ++ l2) = getList keq key l2 := by
  induction l1 with
  | nil => rfl
  | cons x xs ih =>
    obtain ⟨k0, v0⟩ := x
    rw [List.cons_append, getList,
      if_neg (by simp [h (k0, v0) (List.mem_cons_self _ _)]),
      ih (fun p hp => h p (List.mem_cons_of_mem _ hp))]

theorem insert_distinct (keq : K → K → Bool)
    (hsymm : ∀ a b, keq a b = true → keq b a = true)
    (m : LinearMap K V) (k : K) (v : V)
    (hd : DistinctKeys keq m.storage) :
    DistinctKeys keq ((m.insert keq k v).2).storage := by
  rw [LinearMap.insert]
  cases hpos : m.entryIndex keq k with
  | none =>
    show DistinctKeys keq (m.storage ++ [(k, v)])
    refine append_distinct keq hsymm _ k v hd ?_
    intro p hp
    exact (position_eq_none_iff _ _).mp hpos p hp
  | some i =>
    cases hget : m.storage.get? i with
    | none => simp only [hget]; exact hd
    | some p =>
      simp only [hget]
      rw [distinctKeys_iff_keys, keysOf_set_same _ _ _ _ hget]
      exact (distinctKeys_iff_keys _ _).mp hd

theorem or_insert_distinct (keq : K → K → Bool)
    (hsymm : ∀ a b, keq a b = true → keq b a = true)
    (m : LinearMap K V) (k : K) (v : V)
    (hd : DistinctKeys keq m.storage) :
    DistinctKeys keq ((m.or_insert keq k v).storage) := by
  rw [LinearMap.or_insert]
  cases hpos : m.entryIndex keq k with
  | none =>
    show DistinctKeys keq (m.storage ++ [(k, v)])
    refine append_distinct keq hsymm _ k v hd ?_
    intro p hp
    exact (position_eq_none_iff _ _).mp hpos p hp
  | some i => exact hd

theorem remove_distinct (keq : K → K → Bool)
    (hsymm : ∀ a b, keq a b = true → keq b a = true)
    (m : LinearMap K V) (k : K)
    (hd : DistinctKeys keq m.storage) :
    DistinctKeys keq ((m.remove keq k).2).storage := by
  rw [LinearMap.remove]
  cases hpos : position (fun p => keq p.1 k) m.storage with
  | none => exact hd
  | some i =>
    cases hget : m.storage.get? i with
    | none => simp only [hget]; exact hd
    | some p =>
      simp only [hget]
      show DistinctKeys keq (swapRemove m.storage i)
      have hi : i < m.storage.length := position_lt_length _ _ _ hpos
      rw [DistinctKeys,
        List.Perm.pairwise_iff (distinct_symm_rel keq hsymm)
          (swapRemove_perm m.storage i hi)]
      exact List.Pairwise.sublist (List.eraseIdx_sublist _ _) hd

theorem retain_distinct (keq : K → K → Bool) (keep : K → V → Bool × V)
    (m : LinearMap K V) (hd : DistinctKeys keq m.storage) :
    DistinctKeys keq ((m.retain keep).storage) := by
  rw [retain_eq_keptOf]
  exact distinctKeys_of_keys_sublist keq (keysOf_keptOf_sublist keep m.storage) hd

theorem applyOp_distinct (keq : K → K → Bool)
    (hsymm : ∀ a b, keq a b = true → keq b a = true)
    (op : Op K V) (m : LinearMap K V)
    (hd : DistinctKeys keq m.storage) :
    DistinctKeys keq ((applyOp keq op m).storage) := by
  cases op with
  | ins k v => exact insert_distinct keq hsymm m k v hd
  | rem k => exact remove_distinct keq hsymm m k hd
  | ret keep => exact retain_distinct keq keep m hd
  | entryOrInsert k v => exact or_insert_distinct keq hsymm m k v hd
  | clr => exact List.Pairwise.nil
  | drn => exact List.Pairwise.nil

theorem applyOps_distinct (keq : K → K → Bool)
    (hsymm : ∀ a b, keq a b = true → keq b a = true)
    (ops : List (Op K V)) :
    DistinctKeys keq (applyOps keq ops).storage := by
  suffices h : ∀ (m : LinearMap K V), DistinctKeys keq m.storage →
      DistinctKeys keq (List.foldl (fun m op => applyOp keq op m) m ops).storage by
    exact h ⟨[]⟩ List.Pairwise.nil
  induction ops with
  | nil => intro m hm; simpa using hm
  | cons op rest ih =>
    intro m hm
    rw [List.foldl_cons]
    exact ih _ (applyOp_distinct keq hsymm op m hm)

theorem len_eq_dedup_of_distinct (keq : K → K → Bool) (l : List (K × V))
    (hd : DistinctKeys keq l) :
    l.length = (dedupKeys keq (keysOf l)).length := by
  rw [dedupKeys_of_pairwise keq (keysOf l) ((distinctKeys_iff_keys keq l).mp hd)]
  simp [keysOf]

/-! ## Further bridging lemmas -/

theorem linearMap_eq_of_storage_eq {a b : LinearMap K V}
    (h : a.storage = b.storage) : a = b := by
  cases a; cases b; simpa using h

theorem keqNat_refl : ∀ a : Nat, keqNat a a = true := by
  intro a; simp [keqNat]

theorem keqNat_symm : ∀ a b : Nat, keqNat a b = true → keqNat b a = true := by
  intro a b h
  simp [keqNat] at h ⊢
  omega

theorem keqFst_refl : ∀ a : Nat × Nat, keqFst a a = true := by
  intro a; simp [keqFst]

theorem keqFst_symm : ∀ a b : Nat × Nat, keqFst a b = true → keqFst b a = true := by
  intro a b h
  simp [keqFst] at h ⊢
  omega

theorem contains_key_eq_entryIndex (keq : K → K → Bool) (m : LinearMap K V) (k : K) :
    m.contains_key keq k = (m.entryIndex keq k).isSome := by
  rw [LinearMap.contains_key, LinearMap.get, getList_eq_position, LinearMap.entryIndex]
  cases hpos : position (fun p => keq k p.1) m.storage with
  | none => rfl
  | some i =>
    have hi : i < m.storage.length := position_lt_length _ _ _ hpos
    simp [List.get?_eq_getElem?, List.getElem?_eq_getElem hi]

theorem scanProbes_of_position_some (p : α → Bool) (l : List α) (i : Nat)
    (h : position p l = some i) : scanProbes p l = l.take (i + 1) := by
  induction l generalizing i with
  | nil => simp [position] at h
  | cons x xs ih =>
    cases hx : p x with
    | true =>
      rw [position, hx, if_pos rfl] at h
      obtain rfl : i = 0 := by injection h; omega
      simp [scanProbes, hx]
    | false =>
      rw [position, hx] at h
      simp only [Bool.false_eq_true, if_false, Option.map_eq_some'] at h
      obtain ⟨n, hn, rfl⟩ := h
      rw [scanProbes, if_neg (by simp [hx]), ih n hn]
      rfl

theorem scanProbes_of_position_none (p : α → Bool) (l : List α)
    (h : position p l = none) : scanProbes p l = l := by
  induction l with
  | nil => rfl
  | cons x xs ih =>
    cases hx : p x with
    | true =>
      rw [position, hx, if_pos rfl] at h
      exact absurd h (by simp)
    | false =>
      rw [position, hx] at h
      simp only [Bool.false_eq_true, if_false, Option.map_eq_none'] at h
      rw [scanProbes, if_neg (by simp [hx]), ih h]

theorem mem_take_exists_get? (l : List α) (i : Nat) (q : α) (hq : q ∈ l.take i) :
    ∃ j, j < i ∧ l.get? j = some q := by
  obtain ⟨n, hn⟩ := List.mem_iff_get?.mp hq
  have hni : n < i := by
    have hn2 := hn
    rw [List.get?_eq_getElem?, List.getElem?_eq_some] at hn2
    have hlt : n < (l.take i).length := hn2.1
    simp [List.length_take] at hlt
    omega
  refine ⟨n, hni, ?_⟩
  rw [← take_get?_of_lt l i n hni]
  exact hn

theorem getList_set_found (keq : K → K → Bool) (k : K) (l : List (K × V)) (i : Nat)
    (p : K × V) (v : V)
    (hget : l.get? i = some p)
    (hmatch : keq k p.1 = true)
    (hmin : ∀ j, j < i → ∀ q, l.get? j = some q → keq k q.1 = false) :
    getList keq k (l.set i (p.1, v)) = some v := by
  have hi : i < l.length := by
    rw [List.get?_eq_getElem?, List.getElem?_eq_some] at hget
    exact hget.1
  rw [List.set_eq_take_append_cons_drop, if_pos hi]
  rw [getList_append_right]
  · rw [getList, if_pos (by simp [hmatch])]
  · intro q hq
    obtain ⟨j, hj, hjq⟩ := mem_take_exists_get? l i q hq
    exact hmin j hj q hjq

/-! ## Claim theorems -/

/-- C1: starting from the empty map, every sequence of insert, remove,
retain, entry(or-insert), clear and drain operations leaves the storage
with pairwise inequivalent keys (at most one pair per distinct key under
the key type's equality), and `len()` equals the number of distinct keys
logically present (the deduplicated key count). -/
theorem C1_invariant (keq : K → K → Bool)
    (hsymm : ∀ a b, keq a b = true → keq b a = true)
    (ops : List (Op K V)) :
    DistinctKeys keq (applyOps keq ops).storage ∧
      (applyOps keq ops).len
        = (dedupKeys keq (keysOf (applyOps keq ops).storage)).length := by
  have hd := applyOps_distinct keq hsymm ops
  exact ⟨hd, len_eq_dedup_of_distinct keq _ hd⟩

/-- Witness for C1 at a concrete operation sequence over `Nat` keys. -/
theorem C1_invariant_witness :
    DistinctKeys keqNat (applyOps keqNat
      [Op.ins 1 10, Op.ins 2 20, Op.ins 1 30, Op.rem 2,
        Op.entryOrInsert 3 40]).storage ∧
    (applyOps keqNat
      [Op.ins 1 10, Op.ins 2 20, Op.ins 1 30, Op.rem 2,
        Op.entryOrInsert 3 40]).len
      = (dedupKeys keqNat (keysOf (applyOps keqNat
          [Op.ins 1 10, Op.ins 2 20, Op.ins 1 30, Op.rem 2,
            Op.entryOrInsert 3 40]).storage)).length :=
  C1_invariant keqNat keqNat_symm _

/-- C2: `insert` on a present key (the entry scan finds an index) returns
the previous value, overwrites only the value at that index — the stored
key object `p.1` is kept, not replaced by the argument key — preserves
`len` and the whole key sequence, and a following `get` yields the new
value; on an absent key it appends `(k, v)`, returns `none`, grows `len`
by one, and a following `get` yields `v`.  Presence is `contains_key`,
which agrees with the entry scan. -/
theorem C2_insert_spec (keq : K → K → Bool) (hrefl : ∀ a, keq a a = true)
    (m : LinearMap K V) (k : K) (v : V) :
    m.contains_key keq k = (m.entryIndex keq k).isSome ∧
    (m.entryIndex keq k = none →
      m.insert keq k v = (none, ⟨m.storage ++ [(k, v)]⟩) ∧
        ((m.insert keq k v).2).len = m.len + 1 ∧
        ((m.insert keq k v).2).get keq k = some v) ∧
    (∀ i p, m.entryIndex keq k = some i → m.storage.get? i = some p →
      m.insert keq k v = (some p.2, ⟨m.storage.set i (p.1, v)⟩) ∧
        ((m.insert keq k v).2).len = m.len ∧
        keysOf ((m.insert keq k v).2).storage = keysOf m.storage ∧
        ((m.insert keq k v).2).storage.get? i = some (p.1, v) ∧
        ((m.insert keq k v).2).get keq k = some v) := by
  refine ⟨contains_key_eq_entryIndex keq m k, ?_, ?_⟩
  · intro hpos
    have hins : m.insert keq k v = (none, ⟨m.storage ++ [(k, v)]⟩) := by
      simp only [LinearMap.insert, hpos]
      rfl
    refine ⟨hins, ?_, ?_⟩
    · rw [hins]
      show (m.storage ++ [(k, v)]).length = m.storage.length + 1
      simp
    · rw [hins]
      show getList keq k (m.storage ++ [(k, v)]) = some v
      rw [getList_append_right keq k _ _
        (fun p hp => (position_eq_none_iff _ _).mp hpos p hp)]
      rw [getList, if_pos (by simp [hrefl k])]
  · intro i p hpos hget
    have hins : m.insert keq k v = (some p.2, ⟨m.storage.set i (p.1, v)⟩) := by
      simp only [LinearMap.insert, hpos, hget]
    obtain ⟨x, hx, hpx, hmin⟩ := position_eq_some _ _ _ hpos
    have hxp : x = p := by rw [hget] at hx; exact (Option.some_inj.mp hx).symm
    have hpp : keq k p.1 = true := by
      have h2 := hpx
      rw [hxp] at h2
      simpa using h2
    have hi : i < m.storage.length := position_lt_length _ _ _ hpos
    refine ⟨hins, ?_, ?_, ?_, ?_⟩
    · rw [hins]
      show (m.storage.set i (p.1, v)).length = m.storage.length
      simp
    · rw [hins]
      exact keysOf_set_same _ _ _ _ hget
    · rw [hins]
      show (m.storage.set i (p.1, v)).get? i = some (p.1, v)
      rw [List.get?_eq_getElem?]
      exact List.getElem?_set_self hi
    · rw [hins]
      show getList keq k (m.storage.set i (p.1, v)) = some v
      exact getList_set_found keq k m.storage i p v hget hpp
        (fun j hj q hq => by simpa using hmin j hj q hq)

/-- Witness for C2: replacing the value of present key 1 and appending
absent key 3. -/
theorem C2_insert_spec_witness :
    LinearMap.insert keqNat ⟨[(1,10),(2,20)]⟩ 1 99
        = (some 10, ⟨[(1,99),(2,20)]⟩) ∧
      LinearMap.insert keqNat ⟨[(1,10),(2,20)]⟩ 3 30
        = (none, ⟨[(1,10),(2,20),(3,30)]⟩) := by
  constructor
  · exact ((C2_insert_spec keqNat keqNat_refl ⟨[(1,10),(2,20)]⟩ 1 99).2.2
      0 (1, 10) rfl rfl).1
  · exact ((C2_insert_spec keqNat keqNat_refl ⟨[(1,10),(2,20)]⟩ 3 30).2.1 rfl).1

/-- C3: `remove` with no matching stored key (the scan predicate fails on
every pair) returns `none` and leaves the map untouched; with a first
matching index `i` it returns that pair's value, the new storage is the
swap-remove (last element moved into slot `i`, then popped), `len` drops
by exactly one, and the result is a permutation of dropping index `i` —
every other pair remains present. -/
theorem C3_remove_spec (keq : K → K → Bool) (m : LinearMap K V) (k : K) :
    (position (fun p => keq p.1 k) m.storage = none ↔
      ∀ q ∈ m.storage, keq q.1 k = false) ∧
    (position (fun p => keq p.1 k) m.storage = none →
      m.remove keq k = (none, m)) ∧
    (∀ i p, position (fun p => keq p.1 k) m.storage = some i →
      m.storage.get? i = some p →
      m.remove keq k = (some p.2, ⟨swapRemove m.storage i⟩) ∧
        ((m.remove keq k).2).len + 1 = m.len ∧
        List.Perm ((m.remove keq k).2).storage (m.storage.eraseIdx i)) := by
  refine ⟨position_eq_none_iff _ _, ?_, ?_⟩
  · intro hpos
    simp only [LinearMap.remove, hpos]
  · intro i p hpos hget
    have hrem : m.remove keq k = (some p.2, ⟨swapRemove m.storage i⟩) := by
      simp only [LinearMap.remove, hpos, hget]
    have hi : i < m.storage.length := position_lt_length _ _ _ hpos
    refine ⟨hrem, ?_, ?_⟩
    · rw [hrem]
      show (swapRemove m.storage i).length + 1 = m.storage.length
      exact length_swapRemove m.storage i hi
    · rw [hrem]
      exact swapRemove_perm m.storage i hi

/-- Witness for C3: removing present key 1 (swap-remove brings the last
pair forward) and absent key 7. -/
theorem C3_remove_spec_witness :
    LinearMap.remove keqNat ⟨[(1,10),(2,20),(3,30)]⟩ 1
        = (some 10, ⟨[(3,30),(2,20)]⟩) ∧
      LinearMap.remove keqNat ⟨[(1,10),(2,20),(3,30)]⟩ 7
        = (none, ⟨[(1,10),(2,20),(3,30)]⟩) := by
  constructor
  · exact ((C3_remove_spec keqNat ⟨[(1,10),(2,20),(3,30)]⟩ 1).2.2
      0 (1, 10) rfl rfl).1
  · exact (C3_remove_spec keqNat ⟨[(1,10),(2,20),(3,30)]⟩ 7).2.1 rfl

/-- C4: the entry scan is one linear probe of the storage — when it
returns `some i`, index `i` holds a key equal to the probe and every
earlier index does not (earliest match), and the probe sequence is
exactly the prefix up to and including index `i`; when it returns `none`,
no stored key matches and every element was probed exactly once.
Resolving a vacant entry with `insert v` appends `(k, v)` and the
returned reference designates the newly stored last value. -/
theorem C4_entry_spec (keq : K → K → Bool) (m : LinearMap K V) (k : K) :
    (∀ i, m.entryIndex keq k = some i →
      (∃ p, m.storage.get? i = some p ∧ keq k p.1 = true) ∧
      (∀ j, j < i → ∀ q, m.storage.get? j = some q → keq k q.1 = false) ∧
      scanProbes (fun p => keq k p.1) m.storage = m.storage.take (i + 1)) ∧
    (m.entryIndex keq k = none →
      (∀ q ∈ m.storage, keq k q.1 = false) ∧
      scanProbes (fun p => keq k p.1) m.storage = m.storage) ∧
    (∀ v, (VacantEntry.insert m k v).storage = m.storage ++ [(k, v)] ∧
      (VacantEntry.insert m k v).storage.getLast? = some (k, v)) := by
  refine ⟨?_, ?_, ?_⟩
  · intro i hpos
    obtain ⟨x, hx, hpx, hmin⟩ := position_eq_some _ _ _ hpos
    exact ⟨⟨x, hx, by simpa using hpx⟩,
      fun j hj q hq => by simpa using hmin j hj q hq,
      scanProbes_of_position_some _ _ _ hpos⟩
  · intro hpos
    exact ⟨fun q hq => by simpa using (position_eq_none_iff _ _).mp hpos q hq,
      scanProbes_of_position_none _ _ hpos⟩
  · intro v
    refine ⟨rfl, ?_⟩
    show (m.storage ++ [(k, v)]).getLast? = some (k, v)
    exact List.getLast?_concat _

/-- Witness for C4: the probe sequence for key 2 is the full two-element
prefix (match at index 1), and a vacant insert appends and exposes the
new last value. -/
theorem C4_entry_spec_witness :
    scanProbes (fun p => keqNat 2 p.1) [(1,10),(2,20)]
        = ([(1,10),(2,20)] : List (Nat × Nat)).take 2 ∧
      (VacantEntry.insert (⟨[(1,10)]⟩ : LinearMap Nat Nat) 5 50).storage
        = [(1,10),(5,50)] ∧
      (VacantEntry.insert (⟨[(1,10)]⟩ : LinearMap Nat Nat) 5 50).storage.getLast?
        = some (5, 50) := by
  obtain ⟨-, -, h3⟩ := (C4_entry_spec keqNat ⟨[(1,10),(2,20)]⟩ 2).1 1 rfl
  obtain ⟨h4, h5⟩ := (C4_entry_spec keqNat ⟨[(1,10)]⟩ 5).2.2 50
  exact ⟨h3, h4, h5⟩

/-- C5 counterexample: the claim says each removed pair is dropped
immediately when it is skipped.  On `[(1,10),(2,20),(3,30)]` with the
predicate keeping keys ≠ 2, the pair `(2,20)` is skipped during the
second loop iteration, yet after two iterations it is still in the
working vector, and even after the loop finishes (three iterations) it is
still there, merely swapped to the back; only the final truncation
removes it.  So drops are deferred to the end of `retain`, not performed
at skip time. -/
theorem C5_counterexample :
    (retainGo (fun (k : Nat) (v : Nat) => (decide (k ≠ 2), v))
        2 [(1,10),(2,20),(3,30)] 0 0).1 = [(1,10),(2,20),(3,30)] ∧
      (2, 20) ∈ (retainGo (fun (k : Nat) (v : Nat) => (decide (k ≠ 2), v))
        2 [(1,10),(2,20),(3,30)] 0 0).1 ∧
      (retainGo (fun (k : Nat) (v : Nat) => (decide (k ≠ 2), v))
        3 [(1,10),(2,20),(3,30)] 0 0).1 = [(1,10),(3,30),(2,20)] ∧
      (2, 20) ∈ (retainGo (fun (k : Nat) (v : Nat) => (decide (k ≠ 2), v))
        3 [(1,10),(2,20),(3,30)] 0 0).1 ∧
      (LinearMap.retain (fun (k : Nat) (v : Nat) => (decide (k ≠ 2), v))
        ⟨[(1,10),(2,20),(3,30)]⟩).storage = [(1,10),(3,30)] := by
  refine ⟨by decide, by decide, by decide, by decide, by decide⟩

/-- C5 (amended): `retain` keeps exactly the pairs whose (possibly
mutated) value passes the predicate, preserving their relative order
(the result is the order-preserving filter `keptOf`), and the loop hands
each stored pair to the predicate exactly once, in storage order (the
call trace equals the original storage); removed pairs are dropped by the
final truncation rather than immediately when skipped. -/
theorem C5_retain_spec (keep : K → V → Bool × V) (m : LinearMap K V) :
    (m.retain keep).storage = keptOf keep m.storage ∧
      retainTrace keep m.storage.length m.storage 0 0 = m.storage :=
  ⟨retain_eq_keptOf keep m, retainTrace_full keep m.storage⟩

/-- C6 counterexample: the claim says checked construction fails
"returning a reference to the first key found to be a duplicate of an
earlier key", i.e. the later, duplicating key.  With keys compared on
their first component, `[((1,0),0), ((1,1),0)]` has its duplicating key
`(1,1)` at index 1, but construction reports `(1,0)` — the key at index
0, the earlier element of the conflict — which is a different key object
than `(1,1)`. -/
theorem C6_counterexample :
    LinearBorrowedMap.new keqFst [((1,0),0), ((1,1),0)]
        = Except.error (1,0) ∧
      ((1,0) : Nat × Nat) ≠ (1,1) ∧
      ¬(LinearBorrowedMap.new keqFst [((1,0),0), ((1,1),0)]
          = Except.error (1,1)) := by
  refine ⟨rfl, by decide, ?_⟩
  intro h
  rw [show LinearBorrowedMap.new keqFst [((1,0),0), ((1,1),0)]
      = Except.error (1,0) from rfl] at h
  injection h with h2
  exact absurd h2 (by decide)

/-- C6 (amended): checked borrowed-view construction succeeds (returning
the slice) exactly on sequences with no two equal keys; on a sequence
with a duplicate it fails carrying the key at `first_duplicate`'s index
`j`, where — for the earliest scan index `i2` whose key equals some
earlier key — `j` is the least earlier index with an equal key: the
error carries the *earlier* key of the first conflict (its key value is
equal to the duplicating key, but it is the earlier stored object). -/
theorem C6_new_spec (keq : K → K → Bool) (l : List (K × V)) :
    (DistinctKeys keq l ↔ LinearBorrowedMap.new keq l = Except.ok l) ∧
    (∀ j, first_duplicate keq l = some j →
      (∃ p, l.get? j = some p ∧ LinearBorrowedMap.new keq l = Except.error p.1) ∧
      ∃ i2, i2 < l.length ∧ j < i2 ∧
        (∃ p q, l.get? j = some p ∧ l.get? i2 = some q ∧ keq p.1 q.1 = true) ∧
        (∀ i3, i3 < i2 → ∀ j3, j3 < i3 → ∀ p q,
          l.get? j3 = some p → l.get? i3 = some q → keq p.1 q.1 = false) ∧
        (∀ j3, j3 < j → ∀ p q,
          l.get? j3 = some p → l.get? i2 = some q → keq p.1 q.1 = false)) ∧
    (¬DistinctKeys keq l → ∃ j, first_duplicate keq l = some j) := by
  have herr : ∀ j, first_duplicate keq l = some j →
      ∃ p, l.get? j = some p ∧ LinearBorrowedMap.new keq l = Except.error p.1 := by
    intro j hfd
    obtain ⟨i2, hi2, hji2, -, -, -⟩ := first_duplicate_eq_some keq l j hfd
    have hj : j < l.length := by omega
    have hp : l.get? j = some l[j] := by
      rw [List.get?_eq_getElem?, List.getElem?_eq_getElem hj]
    refine ⟨l[j], hp, ?_⟩
    simp only [LinearBorrowedMap.new, hfd, hp]
  refine ⟨?_, ?_, ?_⟩
  · constructor
    · intro hd
      have hfd : first_duplicate keq l = none :=
        (first_duplicate_eq_none_iff keq l).mpr hd
      simp only [LinearBorrowedMap.new, hfd]
    · intro hok
      cases hfd : first_duplicate keq l with
      | none => exact (first_duplicate_eq_none_iff keq l).mp hfd
      | some j =>
        obtain ⟨p, hp, herrj⟩ := herr j hfd
        rw [hok] at herrj
        exact absurd herrj (by simp)
  · intro j hfd
    exact ⟨herr j hfd, (first_duplicate_eq_some keq l j hfd)⟩
  · intro hnd
    cases hfd : first_duplicate keq l with
    | none => exact absurd ((first_duplicate_eq_none_iff keq l).mp hfd) hnd
    | some j => exact ⟨j, rfl⟩

/-- Witness for C6 (the claim's own examples): `[(1,"a"),(2,"b")]`
constructs successfully; `[(1,"a"),(1,"b")]` fails reporting key 1. -/
theorem C6_new_spec_witness :
    LinearBorrowedMap.new keqNat [(1,"a"),(2,"b")]
        = Except.ok [(1,"a"),(2,"b")] ∧
      LinearBorrowedMap.new keqNat [(1,"a"),(1,"b")] = Except.error 1 := by
  constructor
  · exact ((C6_new_spec keqNat [(1,"a"),(2,"b")]).1).mp (by decide)
  · obtain ⟨⟨p, hp, herr⟩, -⟩ := (C6_new_spec keqNat [(1,"a"),(1,"b")]).2.1 0 (by decide)
    have hp2 : ((1:Nat), "a") = p := by simpa using hp
    rw [← hp2] at herr
    exact herr

/-- C7: `drain` (`Vec::drain(..)` over the full range) removes every
pair: whatever prefix of `n` items of the handle was consumed, the
post-drain map has empty storage and `len` 0 once the handle is gone,
and the handle carried exactly the removed pairs (consumed prefix plus
unconsumed remainder is the old storage). -/
theorem C7_drain_spec (m : LinearMap K V) (n : Nat) :
    ((m.drain).2).storage = [] ∧ ((m.drain).2).len = 0 ∧
      (m.drain).1.take n ++ (m.drain).1.drop n = m.storage :=
  ⟨rfl, rfl, List.take_append_drop n m.storage⟩

/-- C8 counterexample: the pairs (1,0) and (1,1) share a key; inserting
them in the two possible orders gives maps ending with value 1 resp. 0
for key 1, which compare unequal — so "maps built by inserting the same
key-value pairs in different orders compare equal" fails without a
distinct-keys proviso. -/
theorem C8_counterexample :
    List.Perm [((1:Nat), (0:Nat)), (1, 1)] [(1, 1), (1, 0)] ∧
      mapEqb keqNat keqNat (fromList keqNat [(1,0),(1,1)])
        (fromList keqNat [(1,1),(1,0)]) = false :=
  ⟨by decide, by decide⟩

/-- C8 (amended): map equality holds iff the lengths agree and every
pair of the left map looks up an equal value in the right map — a
storage-order-independent criterion — and two maps built by inserting
the same pairs, *with pairwise distinct keys*, in different orders
compare equal. -/
theorem C8_eq_spec (keq : K → K → Bool) (veq : V → V → Bool)
    (hsymm : ∀ a b, keq a b = true → keq b a = true)
    (hrefl : ∀ a, keq a a = true)
    (hveq : ∀ v2, veq v2 v2 = true) :
    (∀ a b : LinearMap K V, mapEqb keq veq a b = true ↔
      (a.len = b.len ∧
        ∀ p ∈ a.storage, ∃ v2, b.get keq p.1 = some v2 ∧ veq p.2 v2 = true)) ∧
    (∀ l l' : List (K × V), DistinctKeys keq l → List.Perm l l' →
      mapEqb keq veq (fromList keq l) (fromList keq l') = true) := by
  refine ⟨fun a b => mapEqb_eq_true_iff keq veq a b, ?_⟩
  intro l l' hd hp
  have hd' : DistinctKeys keq l' :=
    (List.Perm.pairwise_iff (distinct_symm_rel keq hsymm) hp).mp hd
  have h1 : fromList keq l = (⟨l⟩ : LinearMap K V) :=
    linearMap_eq_of_storage_eq (fromList_distinct keq hsymm l hd)
  have h2 : fromList keq l' = (⟨l'⟩ : LinearMap K V) :=
    linearMap_eq_of_storage_eq (fromList_distinct keq hsymm l' hd')
  rw [h1, h2]
  exact mapEqb_of_perm_distinct keq veq hsymm hrefl hveq l l' hd hp

/-- Witness for C8 (amended): three distinct-keyed pairs inserted in two
different orders give equal maps. -/
theorem C8_eq_spec_witness :
    mapEqb keqNat keqNat (fromList keqNat [(1,10),(2,20),(3,30)])
      (fromList keqNat [(3,30),(1,10),(2,20)]) = true :=
  (C8_eq_spec keqNat keqNat keqNat_symm keqNat_refl keqNat_refl).2
    [(1,10),(2,20),(3,30)] [(3,30),(1,10),(2,20)] (by decide) (by decide)

/-- C9: encoding a map as its key-value sequence in iteration order and
decoding by repeated insert (later duplicates overwriting, as the
deserializer does) reproduces a map equal to the original under the
code's order-independent map equality — for maps satisfying the
distinct-keys invariant that every constructor except the unchecked
vector conversion maintains. -/
theorem C9_roundtrip (keq : K → K → Bool) (veq : V → V → Bool)
    (hsymm : ∀ a b, keq a b = true → keq b a = true)
    (hrefl : ∀ a, keq a a = true)
    (hveq : ∀ v2, veq v2 v2 = true)
    (m : LinearMap K V) (hd : DistinctKeys keq m.storage) :
    mapEqb keq veq (decode keq (m.encode)) m = true := by
  obtain ⟨l⟩ := m
  have h1 : decode keq (LinearMap.encode ⟨l⟩) = (⟨l⟩ : LinearMap K V) :=
    linearMap_eq_of_storage_eq (fromList_distinct keq hsymm l hd)
  rw [h1]
  exact mapEqb_of_perm_distinct keq veq hsymm hrefl hveq l l hd (List.Perm.refl l)

/-- Witness for C9 at a concrete two-entry map. -/
theorem C9_roundtrip_witness :
    mapEqb keqNat keqNat
      (decode keqNat (LinearMap.encode (⟨[(1,10),(2,20)]⟩ : LinearMap Nat Nat)))
      ⟨[(1,10),(2,20)]⟩ = true :=
  C9_roundtrip keqNat keqNat keqNat_symm keqNat_refl keqNat_refl
    ⟨[(1,10),(2,20)]⟩ (by decide)

/-- C10: converting a plain vector of pairs adopts it unchecked: `len`
equals the vector length for every vector, `get` scans and returns the
value of the front-most pair whose key matches (the first matching
index), and — concretely, for `[(1,10),(1,20)]` — the result has length
2, `get 1` returns the first value 10, and the distinct-keys invariant is
violated. -/
theorem C10_fromVec_spec (keq : K → K → Bool) (l : List (K × V)) :
    (fromVec l : LinearMap K V).len = l.length ∧
    (∀ k, (fromVec l : LinearMap K V).get keq k
      = (position (fun p => keq k p.1) l).bind (fun i => (l.get? i).map Prod.snd)) ∧
    (fromVec [((1:Nat),(10:Nat)),(1,20)]).len = 2 ∧
    (fromVec [((1:Nat),(10:Nat)),(1,20)]).get keqNat 1 = some 10 ∧
    ¬DistinctKeys keqNat (fromVec [((1:Nat),(10:Nat)),(1,20)]
        : LinearMap Nat Nat).storage := by
  refine ⟨rfl, ?_, rfl, rfl, by decide⟩
  intro k
  exact getList_eq_position keq k l

end LinearMapRs
